import Mathlib

/-!
Verification of the codons2peptide translation engine
(`codons2peptide.py`).

Python strings are modelled as `List Char`; the per-sequence engine
`translation` is embedded with the process-aborting validation failures of
the original (`sys.exit`) rendered as `Except.error` outcomes, so that the
two validation error kinds are observable.  The conversion table keeps the
source's entry order, `get_start` scans it exactly as the source does, and
the decoding loop keeps the source's iteration bound `len(dna) // 3` while
slicing codons from the ORF.
-/

namespace Codons2Peptide

/-- Error kinds of the engine: the two validation failures of `translation`
(the original prints a message and exits the process; the kind records which
check fired). -/
inductive TranslationError where
  | InvalidCharacter
  | SequenceTooShort
deriving DecidableEq

/-- The conversion table of the source, in source order: 64 codons over
{A,C,G,T}, each mapped to a one-letter amino acid or the stop marker `*`. -/
def conversion : List (List Char × Char) := [
  (['A','T','A'], 'I'), (['A','T','C'], 'I'), (['A','T','T'], 'I'), (['A','T','G'], 'M'),
  (['A','C','A'], 'T'), (['A','C','C'], 'T'), (['A','C','G'], 'T'), (['A','C','T'], 'T'),
  (['A','A','C'], 'N'), (['A','A','T'], 'N'), (['A','A','A'], 'K'), (['A','A','G'], 'K'),
  (['A','G','C'], 'S'), (['A','G','T'], 'S'), (['A','G','A'], 'R'), (['A','G','G'], 'R'),
  (['C','T','A'], 'L'), (['C','T','C'], 'L'), (['C','T','G'], 'L'), (['C','T','T'], 'L'),
  (['C','C','A'], 'P'), (['C','C','C'], 'P'), (['C','C','G'], 'P'), (['C','C','T'], 'P'),
  (['C','A','C'], 'H'), (['C','A','T'], 'H'), (['C','A','A'], 'Q'), (['C','A','G'], 'Q'),
  (['C','G','A'], 'R'), (['C','G','C'], 'R'), (['C','G','G'], 'R'), (['C','G','T'], 'R'),
  (['G','T','A'], 'V'), (['G','T','C'], 'V'), (['G','T','G'], 'V'), (['G','T','T'], 'V'),
  (['G','C','A'], 'A'), (['G','C','C'], 'A'), (['G','C','G'], 'A'), (['G','C','T'], 'A'),
  (['G','A','C'], 'D'), (['G','A','T'], 'D'), (['G','A','A'], 'E'), (['G','A','G'], 'E'),
  (['G','G','A'], 'G'), (['G','G','C'], 'G'), (['G','G','G'], 'G'), (['G','G','T'], 'G'),
  (['T','C','A'], 'S'), (['T','C','C'], 'S'), (['T','C','G'], 'S'), (['T','C','T'], 'S'),
  (['T','T','C'], 'F'), (['T','T','T'], 'F'), (['T','T','A'], 'L'), (['T','T','G'], 'L'),
  (['T','A','C'], 'Y'), (['T','A','T'], 'Y'), (['T','A','A'], '*'), (['T','A','G'], '*'),
  (['T','G','C'], 'C'), (['T','G','T'], 'C'), (['T','G','A'], '*'), (['T','G','G'], 'W')]

/-- Python's `conversion.get(codon, False)`: the value of the first (unique)
entry whose key equals `codon`, or `none` when the key is absent. -/
def conversionGet (codon : List Char) : Option Char :=
  (conversion.find? (fun p => p.1 == codon)).map (fun p => p.2)

/-- `triplet2aa`: the amino acid of one codon.  The Python function returns
the one-letter amino acid, the empty string for a stop codon, or `False`
when the codon is absent from the table; the caller only tests falsiness, so
the two falsy returns (stop, absent) are both modelled as `none`. -/
def triplet2aa (codon : List Char) : Option Char :=
  match conversionGet codon with
  | none => none
  | some aa => if aa = '*' then none else some aa

/-- `get_start()`: scan the table in order for the first codon whose value is
`M` (the source exits the process when none exists, hence the option). -/
def get_start : Option (List Char) :=
  (conversion.find? (fun p => p.2 == 'M')).map (fun p => p.1)

/-- The start codon, the one-time derived constant `re_start` is compiled
from. -/
def start_codon : List Char := get_start.getD []

/-- `re_dna = [^ACTG]+` applied by `re_dna.search`: does the (already
uppercased) sequence contain a character outside {A,C,T,G}? -/
def hasInvalidChar (s : List Char) : Bool :=
  s.any (fun c => !(c == 'A' || c == 'C' || c == 'T' || c == 'G'))

/-- `re_start.search(dna)` for the literal pattern `pat`: index of the
leftmost occurrence of `pat` as a contiguous substring, if any. -/
def findSub (pat : List Char) : List Char → Option Nat
  | [] => if pat.isPrefixOf ([] : List Char) then some 0 else none
  | c :: s => if pat.isPrefixOf (c :: s) then some 0
              else (findSub pat s).map (fun i => i + 1)

/-- The translation loop of the source, accumulator form:
`for trip in range(fuel): codon = ORF[trip*3 : trip*3+3]; aa = triplet2aa(codon);
if not aa: break; peptide += aa`. -/
def decode_go (ORF : List Char) : Nat → Nat → List Char → List Char
  | 0, _, peptide => peptide
  | fuel + 1, trip, peptide =>
    match triplet2aa ((ORF.drop (trip * 3)).take 3) with
    | none => peptide
    | some aa => decode_go ORF fuel (trip + 1) (peptide ++ [aa])

/-- The translation loop without the accumulator (the peptide still to be
produced from iteration `trip` on); proved equal to `decode_go`. -/
def decode (ORF : List Char) : Nat → Nat → List Char
  | 0, _ => []
  | fuel + 1, trip =>
    match triplet2aa ((ORF.drop (trip * 3)).take 3) with
    | none => []
    | some aa => aa :: decode ORF fuel (trip + 1)

/-- `translation(dna)`: uppercase, validate characters then length, locate
the start codon, slice the ORF, and run the decoding loop with the source's
iteration bound `len(dna) // 3`. -/
def translation (dna0 : List Char) : Except TranslationError (List Char) :=
  let dna := dna0.map Char.toUpper
  if hasInvalidChar dna then Except.error TranslationError.InvalidCharacter
  else if dna.length < 3 then Except.error TranslationError.SequenceTooShort
  else
    match findSub start_codon dna with
    | none => Except.ok []
    | some idx => Except.ok (decode_go (dna.drop idx) (dna.length / 3) 0 [])

/-- Map `translation` over a list of lines, propagating the first failure:
this models `list(map(translation, codons))` of the source, where a failing
`translation` call exits the process (so later lines are never reached and
no result list is produced). -/
def mapTranslation : List (List Char) → Except TranslationError (List (List Char))
  | [] => Except.ok []
  | l :: rest =>
    match translation l with
    | Except.error e => Except.error e
    | Except.ok p =>
      match mapTranslation rest with
      | Except.error e => Except.error e
      | Except.ok ps => Except.ok (p :: ps)

/-- `file_translation`, on the list of lines of the input file: blank lines
are removed (`filter(None, ...)` keeps only non-empty strings) and every
remaining line is translated. -/
def file_translation (lines : List (List Char)) :
    Except TranslationError (List (List Char)) :=
  mapTranslation (lines.filter (fun l => !l.isEmpty))

theorem start_codon_eq : start_codon = ['A', 'T', 'G'] := by decide

/-! Basic unfolding equations for the two forms of the decoding loop. -/

lemma decode_go_succ (O : List Char) (fuel trip : Nat) (acc : List Char) :
    decode_go O (fuel + 1) trip acc =
      match triplet2aa ((O.drop (trip * 3)).take 3) with
      | none => acc
      | some aa => decode_go O fuel (trip + 1) (acc ++ [aa]) := rfl

lemma decode_succ (O : List Char) (fuel trip : Nat) :
    decode O (fuel + 1) trip =
      match triplet2aa ((O.drop (trip * 3)).take 3) with
      | none => []
      | some aa => aa :: decode O fuel (trip + 1) := rfl

lemma decode_go_eq (O : List Char) :
    ∀ fuel trip acc, decode_go O fuel trip acc = acc ++ decode O fuel trip := by
  intro fuel
  induction fuel with
  | zero => intro trip acc; simp [decode_go, decode]
  | succ f ih =>
    intro trip acc
    rw [decode_go_succ, decode_succ]
    cases h : triplet2aa ((O.drop (trip * 3)).take 3) with
    | none => simp
    | some aa => simp [ih]

lemma length_decode_le (O : List Char) :
    ∀ fuel trip, (decode O fuel trip).length ≤ fuel := by
  intro fuel
  induction fuel with
  | zero => intro trip; simp [decode]
  | succ f ih =>
    intro trip
    rw [decode_succ]
    cases h : triplet2aa ((O.drop (trip * 3)).take 3) with
    | none => simp
    | some aa => simpa using Nat.succ_le_succ (ih (trip + 1))

/-! The conversion table only holds 3-character codons, so any slice of a
different length is unmapped and (being falsy) terminates the loop. -/

lemma conversion_keys_length : ∀ p ∈ conversion, p.1.length = 3 := by decide

lemma conversionGet_eq_none_of_ne3 {codon : List Char} (h : codon.length ≠ 3) :
    conversionGet codon = none := by
  unfold conversionGet
  have hfind : conversion.find? (fun p => p.1 == codon) = none := by
    rw [List.find?_eq_none]
    intro p hp hbeq
    exact h (eq_of_beq hbeq ▸ conversion_keys_length p hp)
  rw [hfind]; rfl

lemma triplet2aa_eq_none_of_ne3 {codon : List Char} (h : codon.length ≠ 3) :
    triplet2aa codon = none := by
  unfold triplet2aa
  rw [conversionGet_eq_none_of_ne3 h]

lemma decode_eq_nil_of_short {O : List Char} {fuel trip : Nat}
    (h : O.length < trip * 3 + 3) : decode O fuel trip = [] := by
  cases fuel with
  | zero => rfl
  | succ f =>
    rw [decode_succ]
    have hlen : ((O.drop (trip * 3)).take 3).length ≠ 3 := by
      simp only [List.length_take, List.length_drop]
      omega
    rw [triplet2aa_eq_none_of_ne3 hlen]

/-- Any two iteration bounds at least `O.length / 3` (offset by the current
trip count) give the loop the same result: the extra iterations only ever
see truncated slices, which terminate decoding at once. -/
lemma decode_fuel_congr {O : List Char} :
    ∀ fuel₁ fuel₂ trip, O.length / 3 ≤ fuel₁ + trip → O.length / 3 ≤ fuel₂ + trip →
      decode O fuel₁ trip = decode O fuel₂ trip := by
  intro fuel₁
  induction fuel₁ with
  | zero =>
    intro fuel₂ trip h₁ h₂
    have h3 : O.length < trip * 3 + 3 := by omega
    rw [decode_eq_nil_of_short h3, decode_eq_nil_of_short h3]
  | succ f ih =>
    intro fuel₂ trip h₁ h₂
    cases fuel₂ with
    | zero =>
      have h3 : O.length < trip * 3 + 3 := by omega
      rw [decode_eq_nil_of_short h3, decode_eq_nil_of_short h3]
    | succ f₂ =>
      rw [decode_succ, decode_succ]
      cases h : triplet2aa ((O.drop (trip * 3)).take 3) with
      | none => rfl
      | some aa =>
        simp only []
        rw [ih f₂ (trip + 1) (by omega) (by omega)]

/-! Properties of the leftmost-substring search `findSub`. -/

lemma findSub_nil_pat : ∀ r : List Char, findSub [] r = some 0
  | [] => rfl
  | _ :: _ => rfl

lemma findSub_some {pat : List Char} :
    ∀ {s : List Char} {i : Nat}, findSub pat s = some i →
      pat.isPrefixOf (s.drop i) = true ∧ i + pat.length ≤ s.length := by
  intro s
  induction s with
  | nil =>
    intro i h
    unfold findSub at h
    by_cases hp : pat.isPrefixOf ([] : List Char) = true
    · rw [if_pos hp] at h
      cases h
      have : pat <+: ([] : List Char) := List.isPrefixOf_iff_prefix.mp hp
      simpa [hp] using this.length_le
    · rw [if_neg hp] at h
      cases h
  | cons c s ih =>
    intro i h
    unfold findSub at h
    by_cases hp : pat.isPrefixOf (c :: s) = true
    · rw [if_pos hp] at h
      cases h
      have : pat <+: c :: s := List.isPrefixOf_iff_prefix.mp hp
      simpa [hp] using this.length_le
    · rw [if_neg hp] at h
      cases hfs : findSub pat s with
      | none => rw [hfs] at h; cases h
      | some j =>
        rw [hfs] at h
        cases h
        obtain ⟨h1, h2⟩ := ih hfs
        exact ⟨h1, by simp only [List.length_cons]; omega⟩

/-- The leftmost occurrence of `pat` in `s` is also the leftmost occurrence
of `pat` in `s ++ r`: the match already lies wholly inside `s`, and nothing
appended after `s` can create an earlier one. -/
lemma findSub_append {pat : List Char} :
    ∀ {s : List Char} {i : Nat} (r : List Char),
      findSub pat s = some i → findSub pat (s ++ r) = some i := by
  intro s
  induction s with
  | nil =>
    intro i r h
    unfold findSub at h
    by_cases hp : pat.isPrefixOf ([] : List Char) = true
    · rw [if_pos hp] at h
      cases h
      have hpat : pat = [] := by
        have := List.isPrefixOf_iff_prefix.mp hp
        simpa using this.length_le
      rw [hpat, List.nil_append]
      exact findSub_nil_pat r
    · rw [if_neg hp] at h
      cases h
  | cons c s ih =>
    intro i r h
    unfold findSub at h
    by_cases hp : pat.isPrefixOf (c :: s) = true
    · rw [if_pos hp] at h
      cases h
      have hpre : pat <+: c :: (s ++ r) := by
        rw [← List.cons_append]
        exact (List.isPrefixOf_iff_prefix.mp hp).trans (List.prefix_append (c :: s) r)
      show findSub pat (c :: (s ++ r)) = some 0
      unfold findSub
      rw [if_pos (List.isPrefixOf_iff_prefix.mpr hpre)]
    · rw [if_neg hp] at h
      cases hfs : findSub pat s with
      | none => rw [hfs] at h; cases h
      | some j =>
        rw [hfs] at h
        cases h
        have hlen : pat.length ≤ (c :: s).length := by
          have := (findSub_some hfs).2
          simp only [List.length_cons]
          omega
        have hp' : ¬ pat.isPrefixOf (c :: (s ++ r)) = true := by
          intro hcon
          apply hp
          have hpre : pat <+: (c :: s) ++ r := by
            rw [List.cons_append]
            exact List.isPrefixOf_iff_prefix.mp hcon
          have : pat = ((c :: s) ++ r).take pat.length := List.prefix_iff_eq_take.mp hpre
          rw [List.take_append_of_le_length hlen] at this
          exact List.isPrefixOf_iff_prefix.mpr (List.prefix_iff_eq_take.mpr this)
        show findSub pat (c :: (s ++ r)) = some (j + 1)
        unfold findSub
        rw [if_neg hp', ih r hfs]
        rfl

lemma isInfix_of_findSub {pat s : List Char} {i : Nat}
    (h : findSub pat s = some i) : pat <:+: s := by
  obtain ⟨h1, _⟩ := findSub_some h
  obtain ⟨t, ht⟩ := List.isPrefixOf_iff_prefix.mp h1
  exact ⟨s.take i, t, by rw [List.append_assoc, ht, List.take_append_drop]⟩

lemma findSub_eq_none_of_not_infix {pat s : List Char}
    (h : ¬ pat <:+: s) : findSub pat s = none := by
  cases hfs : findSub pat s with
  | none => rfl
  | some i => exact absurd (isInfix_of_findSub hfs) h

/-! Normalization: a sequence already written over the uppercase nucleotide
alphabet is fixed by `.upper()` and passes the character validation. -/

/-- Membership in the uppercase nucleotide alphabet {A,C,G,T}. -/
def isNuc (c : Char) : Prop := c = 'A' ∨ c = 'C' ∨ c = 'G' ∨ c = 'T'

instance (c : Char) : Decidable (isNuc c) := by unfold isNuc; infer_instance

lemma toUpper_eq_self_of_isNuc {c : Char} (h : isNuc c) : c.toUpper = c := by
  rcases h with h | h | h | h <;> subst h <;> decide

lemma map_toUpper_eq_self {s : List Char} (h : ∀ c ∈ s, isNuc c) :
    s.map Char.toUpper = s := by
  induction s with
  | nil => rfl
  | cons c s ih =>
    simp only [List.map_cons]
    rw [toUpper_eq_self_of_isNuc (h c (List.mem_cons_self c s)),
      ih (fun x hx => h x (List.mem_cons_of_mem c hx))]

lemma hasInvalidChar_eq_false {s : List Char} (h : ∀ c ∈ s, isNuc c) :
    hasInvalidChar s = false := by
  unfold hasInvalidChar
  rw [List.any_eq_false]
  intro c hc
  rcases h c hc with h' | h' | h' | h' <;> subst h' <;> decide

/-! Unfolding lemmas for `translation`, one per control path. -/

lemma translation_eq_error_invalid {dna : List Char}
    (h : hasInvalidChar (dna.map Char.toUpper) = true) :
    translation dna = Except.error TranslationError.InvalidCharacter := by
  unfold translation
  simp only [h, if_true]

lemma translation_eq_error_short {dna : List Char}
    (hval : hasInvalidChar (dna.map Char.toUpper) = false)
    (hlen : (dna.map Char.toUpper).length < 3) :
    translation dna = Except.error TranslationError.SequenceTooShort := by
  unfold translation
  simp only [hval, Bool.false_eq_true, if_false, if_pos hlen]

lemma translation_eq_empty {dna : List Char}
    (hval : hasInvalidChar (dna.map Char.toUpper) = false)
    (hlen : ¬ (dna.map Char.toUpper).length < 3)
    (hfind : findSub start_codon (dna.map Char.toUpper) = none) :
    translation dna = Except.ok [] := by
  unfold translation
  simp only [hval, Bool.false_eq_true, if_false, if_neg hlen, hfind]

lemma translation_eq_decode {dna : List Char} {idx : Nat}
    (hval : hasInvalidChar (dna.map Char.toUpper) = false)
    (hlen : ¬ (dna.map Char.toUpper).length < 3)
    (hfind : findSub start_codon (dna.map Char.toUpper) = some idx) :
    translation dna =
      Except.ok (decode ((dna.map Char.toUpper).drop idx)
        ((dna.map Char.toUpper).length / 3) 0) := by
  unfold translation
  simp only [hval, Bool.false_eq_true, if_false, if_neg hlen, hfind, decode_go_eq,
    List.nil_append]

/-! The spec's alternative iteration-bound policy (b), for the refinement
comparison of claim C2: identical to `translation` except that the loop
bound is `floor(ORF_length / 3)` instead of `floor(original_length / 3)`. -/

/-- Modelled from the spec's words for policy (b): loop count =
`floor(ORF_length / 3)`, slicing codons from the ORF. -/
def translation_orfBound (dna0 : List Char) : Except TranslationError (List Char) :=
  let dna := dna0.map Char.toUpper
  if hasInvalidChar dna then Except.error TranslationError.InvalidCharacter
  else if dna.length < 3 then Except.error TranslationError.SequenceTooShort
  else
    match findSub start_codon dna with
    | none => Except.ok []
    | some idx =>
      Except.ok (decode_go (dna.drop idx) ((dna.drop idx).length / 3) 0 [])

lemma translation_orfBound_eq_decode {dna : List Char} {idx : Nat}
    (hval : hasInvalidChar (dna.map Char.toUpper) = false)
    (hlen : ¬ (dna.map Char.toUpper).length < 3)
    (hfind : findSub start_codon (dna.map Char.toUpper) = some idx) :
    translation_orfBound dna =
      Except.ok (decode ((dna.map Char.toUpper).drop idx)
        (((dna.map Char.toUpper).drop idx).length / 3) 0) := by
  unfold translation_orfBound
  simp only [hval, Bool.false_eq_true, if_false, if_neg hlen, hfind, decode_go_eq,
    List.nil_append]

/-- The two bound policies agree on every input: the original bound
`len(dna) // 3` is at least the ORF bound `len(ORF) // 3`, and by
`decode_fuel_congr` all bounds of at least `len(ORF) // 3` give the loop the
same output. -/
lemma translation_eq_orfBound (dna : List Char) :
    translation dna = translation_orfBound dna := by
  by_cases hval : hasInvalidChar (dna.map Char.toUpper) = true
  · rw [translation_eq_error_invalid hval]
    unfold translation_orfBound
    simp only [hval, if_true]
  · have hval' : hasInvalidChar (dna.map Char.toUpper) = false :=
      Bool.not_eq_true _ ▸ Bool.eq_false_iff.mpr (fun h => hval h)
    by_cases hlen : (dna.map Char.toUpper).length < 3
    · rw [translation_eq_error_short hval' hlen]
      unfold translation_orfBound
      simp only [hval', Bool.false_eq_true, if_false, if_pos hlen]
    · cases hfind : findSub start_codon (dna.map Char.toUpper) with
      | none =>
        rw [translation_eq_empty hval' hlen hfind]
        unfold translation_orfBound
        simp only [hval', Bool.false_eq_true, if_false, if_neg hlen, hfind]
      | some idx =>
        rw [translation_eq_decode hval' hlen hfind,
          translation_orfBound_eq_decode hval' hlen hfind]
        have hdrople : ((dna.map Char.toUpper).drop idx).length
            ≤ (dna.map Char.toUpper).length := by
          simp only [List.length_drop]
          omega
        exact congrArg Except.ok (decode_fuel_congr _ _ 0 (by omega) (by omega))

/-! Claim C3's wording of the loop, as a function: at most `fuel` attempts,
the k-th reading the 3 characters of the ORF at offset `3 * k`, a slice
shorter than 3 characters treated as unmapped and terminating decoding. -/

/-- Decoding loop as claim C3 describes it (written from the claim's words,
to be compared with the loop embedded from the source). -/
def specDecode (ORF : List Char) : Nat → Nat → List Char
  | 0, _ => []
  | fuel + 1, k =>
    let slice := (ORF.drop (3 * k)).take 3
    if slice.length < 3 then []
    else
      match conversionGet slice with
      | none => []
      | some aa => if aa = '*' then [] else aa :: specDecode ORF fuel (k + 1)

lemma specDecode_succ (ORF : List Char) (fuel k : Nat) :
    specDecode ORF (fuel + 1) k =
      if ((ORF.drop (3 * k)).take 3).length < 3 then []
      else
        match conversionGet ((ORF.drop (3 * k)).take 3) with
        | none => []
        | some aa => if aa = '*' then [] else aa :: specDecode ORF fuel (k + 1) := rfl

lemma decode_eq_specDecode (O : List Char) :
    ∀ fuel trip, decode O fuel trip = specDecode O fuel trip := by
  intro fuel
  induction fuel with
  | zero => intro trip; rfl
  | succ f ih =>
    intro trip
    rw [decode_succ, specDecode_succ, Nat.mul_comm 3 trip]
    by_cases hsl : ((O.drop (trip * 3)).take 3).length < 3
    · rw [if_pos hsl, triplet2aa_eq_none_of_ne3 (by omega)]
    · rw [if_neg hsl]
      unfold triplet2aa
      cases hget : conversionGet ((O.drop (trip * 3)).take 3) with
      | none => rfl
      | some aa =>
        by_cases hstop : aa = '*'
        · simp [hstop]
        · simp [hstop, ih]

/-! Case normalization: lowering a character and then uppering it gives the
same result as uppering it directly, so `translation` cannot distinguish a
sequence from any of its case variants. -/

lemma toNat_ofNat_of_valid {n : Nat} (h : n.isValidChar) :
    (Char.ofNat n).toNat = n := by
  unfold Char.ofNat
  rw [dif_pos h]
  rfl

lemma toUpper_toLower (c : Char) : c.toLower.toUpper = c.toUpper := by
  unfold Char.toLower Char.toUpper
  by_cases h : c.toNat ≥ 65 ∧ c.toNat ≤ 90
  · rw [if_pos h]
    have hv : (c.toNat + 32).isValidChar := Or.inl (by omega)
    have htn : (Char.ofNat (c.toNat + 32)).toNat = c.toNat + 32 :=
      toNat_ofNat_of_valid hv
    rw [htn, if_pos (by omega : c.toNat + 32 ≥ 97 ∧ c.toNat + 32 ≤ 122),
      if_neg (by omega : ¬ (c.toNat ≥ 97 ∧ c.toNat ≤ 122))]
    have : c.toNat + 32 - 32 = c.toNat := by omega
    rw [this, Char.ofNat_toNat]
  · rw [if_neg h]

lemma map_toUpper_toLower (s : List Char) :
    (s.map Char.toLower).map Char.toUpper = s.map Char.toUpper := by
  rw [List.map_map]
  exact List.map_congr_left (fun c _ => toUpper_toLower c)

/-! Stop barrier: once the loop, at some trip count within both fuel
budgets, reads a codon on which `triplet2aa` is falsy at the end of a common
prefix `B` of the ORF, the loop's output is fully determined by `B` — the
material after it contributes nothing. -/

lemma decode_barrier {B : List Char} {k : Nat}
    (hkB : 3 * k + 3 = B.length)
    (hstop : triplet2aa ((B.drop (3 * k)).take 3) = none) :
    ∀ fuel₁ fuel₂ trip, trip ≤ k → k + 1 ≤ fuel₁ + trip → k + 1 ≤ fuel₂ + trip →
      ∀ r₁ r₂ : List Char,
        decode (B ++ r₁) fuel₁ trip = decode (B ++ r₂) fuel₂ trip := by
  intro fuel₁
  induction fuel₁ with
  | zero => intro fuel₂ trip htk h₁ h₂ r₁ r₂; omega
  | succ f ih =>
    intro fuel₂ trip htk h₁ h₂ r₁ r₂
    cases fuel₂ with
    | zero => omega
    | succ f₂ =>
      have hslice : ∀ r : List Char,
          ((B ++ r).drop (trip * 3)).take 3 = (B.drop (trip * 3)).take 3 := by
        intro r
        rw [List.drop_append_of_le_length (by omega : trip * 3 ≤ B.length),
          List.take_append_of_le_length (by simp only [List.length_drop]; omega)]
      rw [decode_succ, decode_succ, hslice r₁, hslice r₂]
      rcases Nat.lt_or_ge trip k with htlt | htge
      · cases hc : triplet2aa ((B.drop (trip * 3)).take 3) with
        | none => rfl
        | some aa =>
          simp only []
          rw [ih f₂ (trip + 1) (by omega) (by omega) (by omega) r₁ r₂]
      · have htk' : trip = k := by omega
        subst htk'
        rw [Nat.mul_comm trip 3, hstop]

/-! Claim C1. -/

/-- Claim C1 fails as stated: on ATGTAA — the start codon immediately
followed by a stop codon — `translation` returns the peptide M, not the
empty peptide, because the start codon itself is decoded to M and appended
before the stop codon is reached. -/
theorem C1_counterexample :
    translation ['A','T','G','T','A','A'] = Except.ok ['M'] ∧
    translation ['A','T','G','T','A','A'] ≠ Except.ok [] := by
  refine ⟨rfl, fun h => ?_⟩
  rw [show translation ['A','T','G','T','A','A'] = Except.ok ['M'] from rfl] at h
  exact List.cons_ne_nil 'M' [] (Except.ok.inj h)

/-- Claim C1 amended: a sequence consisting of the start codon immediately
followed by a stop codon yields the one-letter peptide M (the start codon
itself is decoded and appended); and the characters after an in-frame stop
codon of the ORF contribute nothing to the peptide: two valid sequences
that agree up to and through such a stop codon translate identically,
whatever follows the stop codon. -/
theorem C1_stop_truncation :
    (∀ st : List Char,
      st = ['T','A','A'] ∨ st = ['T','A','G'] ∨ st = ['T','G','A'] →
      translation (['A','T','G'] ++ st) = Except.ok ['M']) ∧
    (∀ (pre st rest rest' : List Char) (idx : Nat),
      st = ['T','A','A'] ∨ st = ['T','A','G'] ∨ st = ['T','G','A'] →
      (∀ c ∈ pre, isNuc c) → (∀ c ∈ rest, isNuc c) → (∀ c ∈ rest', isNuc c) →
      findSub start_codon pre = some idx →
      (pre.length - idx) % 3 = 0 →
      translation (pre ++ st ++ rest) = translation (pre ++ st ++ rest')) := by
  constructor
  · rintro st (rfl | rfl | rfl) <;> rfl
  · intro pre st rest rest' idx hst hpre hrest hrest' hfind hmod
    have hstnuc : ∀ c ∈ st, isNuc c := by
      rcases hst with rfl | rfl | rfl <;> decide
    have hst3 : st.length = 3 := by rcases hst with rfl | rfl | rfl <;> rfl
    have hidx3 : idx + 3 ≤ pre.length := by
      have h2 := (findSub_some hfind).2
      rw [start_codon_eq] at h2
      simpa using h2
    have key : ∀ r : List Char, (∀ c ∈ r, isNuc c) →
        translation (pre ++ st ++ r) =
          Except.ok (decode ((pre.drop idx ++ st) ++ r)
            ((pre ++ st ++ r).length / 3) 0) := by
      intro r hr
      have hnuc : ∀ c ∈ pre ++ st ++ r, isNuc c := by
        intro c hc
        rcases List.mem_append.mp hc with hc | hc
        · rcases List.mem_append.mp hc with hc | hc
          · exact hpre c hc
          · exact hstnuc c hc
        · exact hr c hc
      have hup : (pre ++ st ++ r).map Char.toUpper = pre ++ st ++ r :=
        map_toUpper_eq_self hnuc
      have hval : hasInvalidChar ((pre ++ st ++ r).map Char.toUpper) = false := by
        rw [hup]; exact hasInvalidChar_eq_false hnuc
      have hlen : ¬ ((pre ++ st ++ r).map Char.toUpper).length < 3 := by
        rw [hup]; simp only [List.length_append]; omega
      have hfind' : findSub start_codon ((pre ++ st ++ r).map Char.toUpper) = some idx := by
        rw [hup]; exact findSub_append r (findSub_append st hfind)
      rw [translation_eq_decode hval hlen hfind', hup]
      congr 1
      rw [List.drop_append_of_le_length
          (by simp only [List.length_append]; omega : idx ≤ (pre ++ st).length),
        List.drop_append_of_le_length (by omega : idx ≤ pre.length)]
    rw [key rest hrest, key rest' hrest']
    have hBlen : 3 * ((pre.length - idx) / 3) + 3 = (pre.drop idx ++ st).length := by
      simp only [List.length_append, List.length_drop, hst3]
      omega
    have hkdrop : (pre.drop idx ++ st).drop (3 * ((pre.length - idx) / 3)) = st := by
      have h3 : 3 * ((pre.length - idx) / 3) = (pre.drop idx).length := by
        simp only [List.length_drop]; omega
      rw [h3]
      exact List.drop_left _ _
    have hstop : triplet2aa
        (((pre.drop idx ++ st).drop (3 * ((pre.length - idx) / 3))).take 3) = none := by
      rw [hkdrop]
      rcases hst with rfl | rfl | rfl <;> rfl
    have hlen1 : (pre ++ st ++ rest).length = pre.length + 3 + rest.length := by
      simp [hst3]; omega
    have hlen2 : (pre ++ st ++ rest').length = pre.length + 3 + rest'.length := by
      simp [hst3]; omega
    exact congrArg Except.ok
      (decode_barrier hBlen hstop _ _ 0 (Nat.zero_le _)
        (by omega) (by omega) rest rest')

/-- Witness for C1: instantiates both halves at concrete sequences; the
second half shows ATGTAAAAA and ATGTAACCCGGG (same content through the stop
codon, different tails) translate identically. -/
theorem C1_witness :
    translation (['A','T','G'] ++ ['T','A','A']) = Except.ok ['M'] ∧
    translation (['A','T','G'] ++ ['T','A','A'] ++ ['A','A','A']) =
      translation (['A','T','G'] ++ ['T','A','A'] ++ ['C','C','C','G','G','G']) :=
  ⟨C1_stop_truncation.1 ['T','A','A'] (Or.inl rfl),
   C1_stop_truncation.2 ['A','T','G'] ['T','A','A'] ['A','A','A']
     ['C','C','C','G','G','G'] 0 (Or.inl rfl) (by decide) (by decide) (by decide)
     (by decide) (by decide)⟩

/-! Claim C2. -/

/-- Claim C2 fails as stated: there is no input at all — in particular none
whose start codon sits at a nonzero offset with a tail that is not a
multiple of 3 — on which the two iteration-bound policies produce different
results: the extra iterations permitted by the original bound only ever read
truncated slices, which terminate decoding without appending anything. -/
theorem C2_counterexample :
    ¬ ∃ dna : List Char, translation dna ≠ translation_orfBound dna := by
  rintro ⟨dna, hne⟩
  exact hne (translation_eq_orfBound dna)

/-- Claim C2 amended: the two iteration-bound policies —
`floor(original_length / 3)` as in the source, and `floor(ORF_length / 3)` —
agree on every input; they never diverge observably. -/
theorem C2_policies_agree (dna : List Char) :
    translation dna = translation_orfBound dna :=
  translation_eq_orfBound dna

/-! Claim C3. -/

/-- Claim C3: for every validated sequence containing the start codon, the
decoding loop performs at most `floor(original_length / 3)` triplet-decode
attempts, the k-th attempt reading the 3 characters of the ORF at offset
3k, and decoding terminates with the peptide accumulated so far as soon as
an attempt reads a slice shorter than 3 characters (treated as unmapped):
`translation` coincides with `specDecode`, the direct transcription of that
description, run on the ORF with bound `floor(original_length / 3)`. -/
theorem C3_loop_shape {dna : List Char} {idx : Nat}
    (hval : hasInvalidChar (dna.map Char.toUpper) = false)
    (hlen : ¬ (dna.map Char.toUpper).length < 3)
    (hfind : findSub start_codon (dna.map Char.toUpper) = some idx) :
    translation dna =
      Except.ok (specDecode ((dna.map Char.toUpper).drop idx)
        ((dna.map Char.toUpper).length / 3) 0) := by
  rw [translation_eq_decode hval hlen hfind, decode_eq_specDecode]

/-- Witness for C3 at the sequence ATGAAAA (length 7, two full codons and a
truncated one). -/
theorem C3_witness :
    hasInvalidChar ((['A','T','G','A','A','A','A'] : List Char).map Char.toUpper) = false ∧
    ¬ ((['A','T','G','A','A','A','A'] : List Char).map Char.toUpper).length < 3 ∧
    findSub start_codon ((['A','T','G','A','A','A','A'] : List Char).map Char.toUpper) = some 0 ∧
    translation ['A','T','G','A','A','A','A'] =
      Except.ok (specDecode (((['A','T','G','A','A','A','A'] : List Char).map Char.toUpper).drop 0)
        (((['A','T','G','A','A','A','A'] : List Char).map Char.toUpper).length / 3) 0) :=
  ⟨by decide, by decide, by decide, C3_loop_shape (by decide) (by decide) (by decide)⟩

/-! Claim C4. -/

lemma mapTranslation_ok_forall₂ :
    ∀ {cs ps : List (List Char)}, mapTranslation cs = Except.ok ps →
      List.Forall₂ (fun l p => translation l = Except.ok p) cs ps := by
  intro cs
  induction cs with
  | nil =>
    intro ps h
    cases h
    exact List.Forall₂.nil
  | cons c cs ih =>
    intro ps h
    unfold mapTranslation at h
    cases hc : translation c with
    | error e => rw [hc] at h; cases h
    | ok p =>
      rw [hc] at h
      cases hrest : mapTranslation cs with
      | error e => rw [hrest] at h; cases h
      | ok ps' =>
        rw [hrest] at h
        cases h
        exact List.Forall₂.cons hc (ih hrest)

lemma mapTranslation_error_of_mem :
    ∀ {cs : List (List Char)} {l : List Char} {e : TranslationError},
      l ∈ cs → translation l = Except.error e →
      ∃ e', mapTranslation cs = Except.error e' := by
  intro cs
  induction cs with
  | nil => intro l e h; cases h
  | cons c cs ih =>
    intro l e hmem herr
    unfold mapTranslation
    cases hc : translation c with
    | error e'' => exact ⟨e'', rfl⟩
    | ok p =>
      rcases List.mem_cons.mp hmem with rfl | hmem'
      · rw [hc] at herr; cases herr
      · obtain ⟨e', he'⟩ := ih hmem' herr
        rw [he']
        exact ⟨e', rfl⟩

/-- Claim C4 fails as stated: a batch of three lines, the middle one
invalid, does not yield three per-line results with the other two
translated — the whole batch reports the invalid line's error (the original
exits the process there), and the valid line after it is never translated. -/
theorem C4_counterexample :
    file_translation [['A','T','G','A','A','A'], ['X','Y','Z','A','C','G','T'],
      ['A','T','G','T','T','T','T','A','A']] =
      Except.error TranslationError.InvalidCharacter := rfl

/-- Claim C4 amended: batch translation is all-or-nothing. When the batch
succeeds, it yields exactly one peptide per non-blank line, pointwise in
input order; and as soon as some non-blank line fails validation, the batch
as a whole reports an error instead of per-line results. -/
theorem C4_batch_abort :
    (∀ (lines ps : List (List Char)), file_translation lines = Except.ok ps →
      List.Forall₂ (fun l p => translation l = Except.ok p)
        (lines.filter (fun l => !l.isEmpty)) ps) ∧
    (∀ (lines : List (List Char)) (l : List Char) (e : TranslationError),
      l ∈ lines.filter (fun l => !l.isEmpty) → translation l = Except.error e →
      ∃ e', file_translation lines = Except.error e') :=
  ⟨fun _ _ h => mapTranslation_ok_forall₂ h,
   fun _ _ _ hmem herr => mapTranslation_error_of_mem hmem herr⟩

/-- Witness for C4: a successful batch (with a blank line dropped) yields
its peptides in order, and a batch whose middle line is too short aborts
with an error. -/
theorem C4_witness :
    List.Forall₂ (fun l p => translation l = Except.ok p)
      (([['A','T','G','A','A','A'], [], ['A','T','G','T','T','T','T','A','A']] :
        List (List Char)).filter (fun l => !l.isEmpty))
      [['M','K'], ['M','F']] ∧
    (∃ e', file_translation
      [['A','T','G','A','A','A'], ['A','T'], ['A','T','G','T','T','T','T','A','A']] =
        Except.error e') :=
  ⟨C4_batch_abort.1 [['A','T','G','A','A','A'], [], ['A','T','G','T','T','T','T','A','A']]
      [['M','K'], ['M','F']] rfl,
   C4_batch_abort.2 [['A','T','G','A','A','A'], ['A','T'], ['A','T','G','T','T','T','T','A','A']]
      ['A','T'] TranslationError.SequenceTooShort (by decide) rfl⟩

/-! Claim C5. -/

/-- Claim C5: every sequence over {A,C,G,T} of length at least 3 containing
no occurrence of the start codon as a substring translates successfully to
the empty peptide. -/
theorem C5_no_start_empty {s : List Char}
    (hnuc : ∀ c ∈ s, isNuc c) (hlen : 3 ≤ s.length)
    (hno : ¬ start_codon <:+: s) :
    translation s = Except.ok [] := by
  have hup : s.map Char.toUpper = s := map_toUpper_eq_self hnuc
  apply translation_eq_empty
  · rw [hup]; exact hasInvalidChar_eq_false hnuc
  · rw [hup]; omega
  · rw [hup]; exact findSub_eq_none_of_not_infix hno

/-- Witness for C5 at the spec's own example CCCCCC. -/
theorem C5_witness :
    (∀ c ∈ (['C','C','C','C','C','C'] : List Char), isNuc c) ∧
    3 ≤ (['C','C','C','C','C','C'] : List Char).length ∧
    ¬ start_codon <:+: ['C','C','C','C','C','C'] ∧
    translation ['C','C','C','C','C','C'] = Except.ok [] :=
  ⟨by decide, by decide, by decide,
   C5_no_start_empty (by decide) (by decide) (by decide)⟩

/-! Claim C6. -/

/-- Claim C6: on GGGATGTGGTAA the start codon is located at offset 3, the
ORF read from there consists of the codons ATG, TGG, TAA, and the peptide is
MW. -/
theorem C6_offset_example :
    findSub start_codon ['G','G','G','A','T','G','T','G','G','T','A','A'] = some 3 ∧
    (['G','G','G','A','T','G','T','G','G','T','A','A'] : List Char).drop 3 =
      ['A','T','G'] ++ ['T','G','G'] ++ ['T','A','A'] ∧
    translation ['G','G','G','A','T','G','T','G','G','T','A','A'] =
      Except.ok ['M','W'] :=
  ⟨rfl, rfl, rfl⟩

/-! Claim C7. -/

/-- Claim C7 fails as stated: the input x normalizes to X of length 1 < 3,
yet `translation` reports InvalidCharacter, not SequenceTooShort — the
character check runs before the length check. -/
theorem C7_counterexample :
    ((['x'] : List Char).map Char.toUpper).length < 3 ∧
    translation ['x'] = Except.error TranslationError.InvalidCharacter :=
  ⟨by decide, rfl⟩

/-- Claim C7 amended: every input whose normalized (uppercased) form has
length strictly less than 3 and contains no character outside {A,C,G,T}
(the character check fires first otherwise) fails with SequenceTooShort. -/
theorem C7_short_sequence {s : List Char}
    (hnuc : ∀ c ∈ s.map Char.toUpper, isNuc c)
    (hlen : (s.map Char.toUpper).length < 3) :
    translation s = Except.error TranslationError.SequenceTooShort :=
  translation_eq_error_short (hasInvalidChar_eq_false hnuc) hlen

/-- Witness for C7 at the spec's own example AT. -/
theorem C7_witness :
    (∀ c ∈ (['A','T'] : List Char).map Char.toUpper, isNuc c) ∧
    ((['A','T'] : List Char).map Char.toUpper).length < 3 ∧
    translation ['A','T'] = Except.error TranslationError.SequenceTooShort :=
  ⟨by decide, by decide, C7_short_sequence (by decide) (by decide)⟩

/-! Claim C8. -/

/-- Claim C8: translation is insensitive to input case — the all-lowercase
variant of a sequence, and more generally any case variant (any sequence
with the same uppercase image), produces the identical result, on success
and on error alike. -/
theorem C8_case_insensitive (s : List Char) :
    translation (s.map Char.toLower) = translation s ∧
    (∀ t : List Char, t.map Char.toUpper = s.map Char.toUpper →
      translation t = translation s) := by
  have key : ∀ u v : List Char, u.map Char.toUpper = v.map Char.toUpper →
      translation u = translation v := by
    intro u v huv
    unfold translation
    rw [huv]
  exact ⟨key _ _ (map_toUpper_toLower s), fun t ht => key t s ht⟩

/-- Witness for C8: atgaaa and the mixed-case AtGaAa both translate exactly
as ATGAAA does. -/
theorem C8_witness :
    translation ['a','t','g','a','a','a'] = translation ['A','T','G','A','A','A'] ∧
    translation ['A','t','G','a','A','a'] = translation ['A','T','G','A','A','A'] :=
  ⟨(C8_case_insensitive ['A','T','G','A','A','A']).2 ['a','t','g','a','a','a'] (by decide),
   (C8_case_insensitive ['A','T','G','A','A','A']).2 ['A','t','G','a','A','a'] (by decide)⟩

/-! Claim C9. -/

/-- Claim C9: whenever `translation` succeeds with a non-empty peptide, the
peptide's first character is M — the first decoded codon of the ORF is the
start codon itself, and it is appended to the peptide. -/
theorem C9_head_M {s p : List Char}
    (hok : translation s = Except.ok p) (hne : p ≠ []) :
    p.head? = some 'M' := by
  by_cases hval : hasInvalidChar (s.map Char.toUpper) = true
  · rw [translation_eq_error_invalid hval] at hok
    cases hok
  · have hval' : hasInvalidChar (s.map Char.toUpper) = false :=
      Bool.eq_false_iff.mpr (fun h => hval h)
    by_cases hlen : (s.map Char.toUpper).length < 3
    · rw [translation_eq_error_short hval' hlen] at hok
      cases hok
    · cases hfind : findSub start_codon (s.map Char.toUpper) with
      | none =>
        rw [translation_eq_empty hval' hlen hfind] at hok
        exact absurd (Except.ok.inj hok).symm hne
      | some idx =>
        rw [translation_eq_decode hval' hlen hfind] at hok
        have hp : decode ((s.map Char.toUpper).drop idx)
            ((s.map Char.toUpper).length / 3) 0 = p := Except.ok.inj hok
        obtain ⟨f, hf⟩ : ∃ f, (s.map Char.toUpper).length / 3 = f + 1 :=
          ⟨(s.map Char.toUpper).length / 3 - 1, by omega⟩
        have hcodon : ((((s.map Char.toUpper).drop idx).drop (0 * 3)).take 3) =
            ['A','T','G'] := by
          simp only [Nat.zero_mul, List.drop_zero]
          have h1 := (findSub_some hfind).1
          rw [start_codon_eq] at h1
          exact (List.prefix_iff_eq_take.mp (List.isPrefixOf_iff_prefix.mp h1)).symm
        rw [hf, decode_succ, hcodon] at hp
        rw [show triplet2aa ['A','T','G'] = some 'M' from rfl] at hp
        simp only [] at hp
        rw [← hp]
        rfl

/-- Witness for C9 at ATGAAA, whose peptide MK indeed starts with M. -/
theorem C9_witness :
    translation ['A','T','G','A','A','A'] = Except.ok ['M','K'] ∧
    (['M','K'] : List Char) ≠ [] ∧
    (['M','K'] : List Char).head? = some 'M' :=
  ⟨rfl, by decide, @C9_head_M ['A','T','G','A','A','A'] ['M','K'] rfl (by decide)⟩

/-! Claim C10. -/

/-- Claim C10: whenever `translation` succeeds, the peptide's length is at
most `floor(length of the normalized input / 3)` — each loop iteration
appends at most one amino-acid character and there are at most that many
iterations. -/
theorem C10_length_bound {s p : List Char}
    (hok : translation s = Except.ok p) :
    p.length ≤ (s.map Char.toUpper).length / 3 := by
  by_cases hval : hasInvalidChar (s.map Char.toUpper) = true
  · rw [translation_eq_error_invalid hval] at hok
    cases hok
  · have hval' : hasInvalidChar (s.map Char.toUpper) = false :=
      Bool.eq_false_iff.mpr (fun h => hval h)
    by_cases hlen : (s.map Char.toUpper).length < 3
    · rw [translation_eq_error_short hval' hlen] at hok
      cases hok
    · cases hfind : findSub start_codon (s.map Char.toUpper) with
      | none =>
        rw [translation_eq_empty hval' hlen hfind] at hok
        rw [← Except.ok.inj hok]
        exact Nat.zero_le _
      | some idx =>
        rw [translation_eq_decode hval' hlen hfind] at hok
        rw [← Except.ok.inj hok]
        exact length_decode_le _ _ _

/-- Witness for C10 at ATGAAA: the peptide MK has length 2 = 6 / 3. -/
theorem C10_witness :
    translation ['A','T','G','A','A','A'] = Except.ok ['M','K'] ∧
    (['M','K'] : List Char).length ≤
      ((['A','T','G','A','A','A'] : List Char).map Char.toUpper).length / 3 :=
  ⟨rfl, C10_length_bound rfl⟩

end Codons2Peptide
